import Mathlib

/-!
# Verification of the key-predistribution repository

Shallow embedding of the two key-predistribution schemes:

* the pool-based scheme (`kps/key_server.py`, `kps/shared_key_service.py`):
  a key pool of hex-valued keys, users holding random key-id subsets, and a
  SHA-256 based shared-key derivation over the intersection of two users'
  key-id sets;
* the matrix-based (Blom-style) scheme (`kps/matrix_key_exchange.py`):
  a symmetric matrix over `Z_p`, secret/public vector pairs per user, and a
  bilinear shared scalar.

Randomness (`secrets.token_hex`, `secrets.randbelow`, `random.sample`) is
modelled by oracle arguments carrying the library functions' documented
contracts (e.g. `random.sample(pop, k)` returns `k` distinct elements of
`pop`); everything else is translated directly from the Python source.
Python exceptions are modelled with `Except` over an error-kind type; a
function that cannot raise and does not mutate is a plain function of the
state.
-/

/-- The error kinds raised by the source (`RuntimeError`, `ValueError`,
`KeyError`), distinguished the way the spec's §7 names them. -/
inductive KpsError where
  /-- `RuntimeError("Key pool is empty...")` in `KeyServer.register_user`. -/
  | emptyPool
  /-- `ValueError("Not enough keys in the pool...")` in `KeyServer.register_user`. -/
  | insufficientPool
  /-- `ValueError`/`KeyError` for an unregistered user id. -/
  | unknownUser
  /-- `ValueError("Vector dimensions do not match...")` in `compute_shared_value`. -/
  | dimensionMismatch
  /-- `ValueError` for `prime <= 2` or `dimension <= 0` in `MatrixKeyServer.__init__`. -/
  | invalidParameters
  /-- `KeyError` from `self._keys[key_id]` on a missing key id. -/
  | keyNotFound
  /-- `ValueError` from `bytes.fromhex` on a non-hex string. -/
  | invalidHex
deriving DecidableEq, Repr

/-! ## Hex encoding and decoding (`bytes.fromhex` / `hexdigest`) -/

/-- The numeric value of one hex digit, accepting both cases as
`bytes.fromhex` does. -/
def hexVal (c : Char) : Option Nat :=
  if '0' ≤ c ∧ c ≤ '9' then some (c.toNat - 48)
  else if 'a' ≤ c ∧ c ≤ 'f' then some (c.toNat - 87)
  else if 'A' ≤ c ∧ c ≤ 'F' then some (c.toNat - 55)
  else none

/-- Decode a list of hex characters, two per byte, as `bytes.fromhex` does
(the source never feeds it the whitespace forms). -/
def hexDecodeAux : List Char → Option (List Nat)
  | [] => some []
  | [_] => none
  | c1 :: c2 :: rest => do
      let h ← hexVal c1
      let l ← hexVal c2
      let tail ← hexDecodeAux rest
      pure ((h * 16 + l) :: tail)

/-- `bytes.fromhex`: hex string to byte list. -/
def hexDecode (s : String) : Option (List Nat) :=
  hexDecodeAux s.data

/-- The lowercase hex digit of a nibble, as `bytes.hex`/`hexdigest` emit. -/
def nibbleChar (n : Nat) : Char :=
  if n < 10 then Char.ofNat (48 + n) else Char.ofNat (87 + n)

/-- The character list of the lowercase hex encoding of a byte list. -/
def hexChars (bs : List Nat) : List Char :=
  bs.flatMap fun b => [nibbleChar (b / 16), nibbleChar (b % 16)]

/-- Lowercase hex encoding of a byte list (`hexdigest` output format). -/
def hexEncode (bs : List Nat) : String :=
  ⟨hexChars bs⟩

/-! ## SHA-256 (`hashlib.sha256`), bytes as `Nat < 256`, words as `Nat < 2^32` -/

/-- 2^32, the word modulus of SHA-256. -/
def w32 : Nat := 4294967296

/-- Right rotation of a 32-bit word by `n` bits. -/
def rotr32 (n x : Nat) : Nat := ((x >>> n) ||| (x <<< (32 - n))) % w32

def bigSigma0 (x : Nat) : Nat := (rotr32 2 x) ^^^ (rotr32 13 x) ^^^ (rotr32 22 x)

def bigSigma1 (x : Nat) : Nat := (rotr32 6 x) ^^^ (rotr32 11 x) ^^^ (rotr32 25 x)

def smallSigma0 (x : Nat) : Nat := (rotr32 7 x) ^^^ (rotr32 18 x) ^^^ (x >>> 3)

def smallSigma1 (x : Nat) : Nat := (rotr32 17 x) ^^^ (rotr32 19 x) ^^^ (x >>> 10)

/-- The 64 SHA-256 round constants. -/
def sha256K : List Nat :=
  [1116352408, 1899447441, 3049323471, 3921009573,
   961987163, 1508970993, 2453635748, 2870763221,
   3624381080, 310598401, 607225278, 1426881987,
   1925078388, 2162078206, 2614888103, 3248222580,
   3835390401, 4022224774, 264347078, 604807628,
   770255983, 1249150122, 1555081692, 1996064986,
   2554220882, 2821834349, 2952996808, 3210313671,
   3336571891, 3584528711, 113926993, 338241895,
   666307205, 773529912, 1294757372, 1396182291,
   1695183700, 1986661051, 2177026350, 2456956037,
   2730485921, 2820302411, 3259730800, 3345764771,
   3516065817, 3600352804, 4094571909, 275423344,
   430227734, 506948616, 659060556, 883997877,
   958139571, 1322822218, 1537002063, 1747873779,
   1955562222, 2024104815, 2227730452, 2361852424,
   2428436474, 2756734187, 3204031479, 3329325298]

/-- The initial SHA-256 hash state. -/
def sha256H0 : List Nat :=
  [1779033703, 3144134277, 1013904242, 2773480762,
   1359893119, 2600822924, 528734635, 1541459225]

/-- Extend 16 message-schedule words to 64. -/
def extendSchedule (ws : List Nat) : List Nat :=
  (List.range 48).foldl
    (fun acc i =>
      acc ++ [(smallSigma1 (acc.getD (i + 14) 0) + acc.getD (i + 9) 0 +
               smallSigma0 (acc.getD (i + 1) 0) + acc.getD i 0) % w32])
    ws

/-- One SHA-256 compression round: state is the 8-word list `[a..h]`,
`kw` the round constant paired with the schedule word. -/
def compressRound (st : List Nat) (kw : Nat × Nat) : List Nat :=
  let a := st.getD 0 0
  let b := st.getD 1 0
  let c := st.getD 2 0
  let d := st.getD 3 0
  let e := st.getD 4 0
  let f := st.getD 5 0
  let g := st.getD 6 0
  let h := st.getD 7 0
  let ch := (e &&& f) ^^^ ((e ^^^ 4294967295) &&& g)
  let maj := (a &&& b) ^^^ (a &&& c) ^^^ (b &&& c)
  let t1 := (h + bigSigma1 e + ch + kw.1 + kw.2) % w32
  let t2 := (bigSigma0 a + maj) % w32
  [(t1 + t2) % w32, a, b, c, (d + t1) % w32, e, f, g]

/-- Compress one 512-bit chunk (given as 16 words) into the hash state. -/
def sha256Compress (h : List Nat) (chunkWords : List Nat) : List Nat :=
  let ws := extendSchedule chunkWords
  let st := (List.range 64).foldl
    (fun st t => compressRound st (sha256K.getD t 0, ws.getD t 0)) h
  (List.range 8).map fun i => (h.getD i 0 + st.getD i 0) % w32

/-- 64 bytes to 16 big-endian words. -/
def bytesToWords (chunk : List Nat) : List Nat :=
  (List.range 16).map fun i =>
    chunk.getD (4 * i) 0 * 16777216 + chunk.getD (4 * i + 1) 0 * 65536 +
    chunk.getD (4 * i + 2) 0 * 256 + chunk.getD (4 * i + 3) 0

/-- Big-endian 8-byte encoding of the bit length. -/
def lenBytes (n : Nat) : List Nat :=
  (List.range 8).map fun i => n / 256 ^ (7 - i) % 256

/-- SHA-256 padding: `0x80`, zeros, then the 64-bit bit length. -/
def sha256Pad (msg : List Nat) : List Nat :=
  msg ++ [128] ++ List.replicate ((64 - (msg.length + 9) % 64) % 64) 0 ++
    lenBytes (8 * msg.length)

/-- Fold the compression function over the 64-byte chunks. -/
def sha256Chunks (h : List Nat) (bytes : List Nat) : List Nat :=
  if hb : bytes = [] then h
  else sha256Chunks (sha256Compress h (bytesToWords (bytes.take 64))) (bytes.drop 64)
termination_by bytes.length
decreasing_by
  simp only [List.length_drop]
  exact Nat.sub_lt (List.length_pos.mpr hb) (by norm_num)

/-- Big-endian bytes of a 32-bit word. -/
def wordToBytes (x : Nat) : List Nat :=
  [x / 16777216 % 256, x / 65536 % 256, x / 256 % 256, x % 256]

/-- `hashlib.sha256(msg).digest()`: the 32-byte SHA-256 digest. -/
def sha256bytes (msg : List Nat) : List Nat :=
  ((List.range 8).map fun i =>
    wordToBytes ((sha256Chunks sha256H0 (sha256Pad msg)).getD i 0)).flatten

/-- `hashlib.sha256(msg).hexdigest()`: the lowercase 64-hex-char digest. -/
def sha256hex (msg : List Nat) : String :=
  hexEncode (sha256bytes msg)

/-! ## Pool-based scheme (`kps/key_server.py`, `kps/models.py`, `kps/config.py`) -/

/-- `KeyDistributionConfig` (frozen dataclass). -/
structure KeyDistributionConfig where
  KEY_POOL_SIZE : Nat := 100
  KEYS_PER_USER : Nat := 10
  DATA_DIR : String := "data"
  STATE_FILE : String := "kps_state.json"
deriving DecidableEq, Repr

/-- `Key`: one pool key; `value` is a hex string as in the source. -/
structure Key where
  key_id : Nat
  value : String
deriving DecidableEq, Repr

/-- `User`: a registered user and their assigned key-id set. -/
structure User where
  user_id : String
  key_ids : Finset Nat
deriving DecidableEq

/-- Association-list lookup, the model of Python `dict` indexing / `.get`
(dict keys are unique, so first-match lookup agrees with the dict). -/
def alookup {α β : Type} [DecidableEq α] : List (α × β) → α → Option β
  | [], _ => none
  | (k, v) :: rest, key => if k = key then some v else alookup rest key

/-- `KeyServer`: config plus the `_keys` and `_users` dicts, modelled as
insertion-ordered association lists. -/
structure KeyServer where
  config : KeyDistributionConfig
  keys : List (Nat × Key)
  users : List (String × User)
deriving DecidableEq

/-- `KeyServer.__init__` with an explicit (or default) config. -/
def KeyServer.init (config : KeyDistributionConfig) : KeyServer :=
  { config := config, keys := [], users := [] }

/-- `KeyServer.generate_key_pool`: clear the pool and store
`KEY_POOL_SIZE` fresh keys with ids `0, 1, ...`; the random hex values
from `secrets.token_hex(16)` are supplied by the oracle `vals`. -/
def KeyServer.generate_key_pool (s : KeyServer) (vals : Nat → String) : KeyServer :=
  { s with keys := (List.range s.config.KEY_POOL_SIZE).map fun i => (i, ⟨i, vals i⟩) }

/-- `KeyServer.get_user` (`dict.get`: `none` when absent). -/
def KeyServer.get_user (s : KeyServer) (user_id : String) : Option User :=
  alookup s.users user_id

/-- `KeyServer.get_key_value` without the raise: `self._keys[key_id].value`
as an `Option` (the `KeyError` case is `none`). -/
def KeyServer.get_key_value (s : KeyServer) (key_id : Nat) : Option String :=
  (alookup s.keys key_id).map Key.value

/-- `KeyServer.register_user`. The draw of
`random.sample(list(self._keys.keys()), KEYS_PER_USER)` is supplied by the
oracle `draw` (as the `set(...)` the source builds from it); its contract
(`KEYS_PER_USER` distinct ids from the pool) is hypothesised where needed.
Mirrors the source's check order exactly: empty pool first, then the
existing-user short-circuit, then the pool-size check. Returns the
registered user together with the successor state; a raise leaves the
Python state untouched, which the `Except` error case models by producing
no successor state. -/
def KeyServer.register_user (s : KeyServer) (user_id : String) (draw : Finset Nat) :
    Except KpsError (User × KeyServer) :=
  if s.keys = [] then .error .emptyPool
  else
    match alookup s.users user_id with
    | some u => .ok (u, s)
    | none =>
        if s.config.KEYS_PER_USER > s.keys.length then .error .insufficientPool
        else
          let u : User := ⟨user_id, draw⟩
          .ok (u, { s with users := s.users ++ [(user_id, u)] })

/-- `KeyServer.replace_state`: install both dicts verbatim. -/
def KeyServer.replace_state (s : KeyServer) (keys : List (Nat × Key))
    (users : List (String × User)) : KeyServer :=
  { s with keys := keys, users := users }

/-! ## Pool-based shared-key derivation (`kps/shared_key_service.py`) -/

namespace SharedKeyService

/-- `SharedKeyService._get_users` + `common_key_ids`: raise `UnknownUser`
if either id is unregistered, else the set intersection of the key-id
sets. -/
def common_key_ids (s : KeyServer) (user_a_id user_b_id : String) :
    Except KpsError (Finset Nat) :=
  match s.get_user user_a_id, s.get_user user_b_id with
  | some ua, some ub => .ok (ua.key_ids ∩ ub.key_ids)
  | _, _ => .error .unknownUser

/-- The accumulation loop of `compute_shared_key`: for each id in order,
hex-decode the pool key's value and append; a missing key id is Python's
`KeyError`, a non-hex value `bytes.fromhex`'s `ValueError`. -/
def gatherMaterial (s : KeyServer) : List Nat → Except KpsError (List Nat)
  | [] => .ok []
  | id :: rest =>
      match s.get_key_value id with
      | none => .error .keyNotFound
      | some hexv =>
          match hexDecode hexv with
          | none => .error .invalidHex
          | some bs => (gatherMaterial s rest).map (bs ++ ·)

/-- `SharedKeyService.compute_shared_key`: `none` on an empty
intersection, else the SHA-256 hexdigest of the concatenated raw key
bytes of the common ids in ascending order (`sorted(shared_ids)`). -/
def compute_shared_key (s : KeyServer) (user_a_id user_b_id : String) :
    Except KpsError (Option String) := do
  let shared ← common_key_ids s user_a_id user_b_id
  if shared = ∅ then pure none
  else do
    let material ← gatherMaterial s (shared.sort (· ≤ ·))
    pure (some (sha256hex material))

/-- `SharedKeyService.compute_shared_key_bytes`: `bytes.fromhex` of the
hex digest. -/
def compute_shared_key_bytes (s : KeyServer) (user_a_id user_b_id : String) :
    Except KpsError (Option (List Nat)) := do
  let hk ← compute_shared_key s user_a_id user_b_id
  match hk with
  | none => pure none
  | some h =>
      match hexDecode h with
      | none => .error .invalidHex
      | some bs => pure (some bs)

end SharedKeyService

/-! ## Matrix-based scheme (`kps/matrix_key_exchange.py`) -/

/-- `MatrixUser`: a user's secret and public vectors. -/
structure MatrixUser where
  user_id : String
  secret_vector : List Nat
  public_vector : List Nat
deriving DecidableEq, Repr

/-- `MatrixKeyServer` state after a successful `__init__`. -/
structure MatrixKeyServer where
  prime : Nat
  dimension : Nat
  secret_matrix : List (List Nat)
  users : List (String × MatrixUser)
deriving DecidableEq

/-- `MatrixKeyServer._generate_symmetric_matrix`: the double loop fills
each on-or-above-diagonal entry `(i, j)`, `i ≤ j`, with a fresh
`secrets.randbelow(prime)` draw (oracle `g i j`) and mirrors it to
`(j, i)`, so entry `(i, j)` of the finished matrix is `g i j` when
`i ≤ j` and `g j i` otherwise. -/
def generate_symmetric_matrix (dimension : Nat) (g : Nat → Nat → Nat) :
    List (List Nat) :=
  (List.range dimension).map fun i =>
    (List.range dimension).map fun j => if i ≤ j then g i j else g j i

/-- `MatrixKeyServer.__init__`: reject `prime ≤ 2` and `dimension ≤ 0`,
else build the symmetric matrix (entry oracle `g`) with no users. -/
def MatrixKeyServer.init (prime dimension : Nat) (g : Nat → Nat → Nat) :
    Except KpsError MatrixKeyServer :=
  if prime ≤ 2 then .error .invalidParameters
  else if dimension ≤ 0 then .error .invalidParameters
  else .ok { prime := prime, dimension := dimension,
             secret_matrix := generate_symmetric_matrix dimension g, users := [] }

/-- `MatrixKeyServer._matrix_vector_product`: per row, the dot product
over column indices `[0, dimension)` reduced mod `prime`. Out-of-range
indexing (an `IndexError` in Python) is modelled with default `0`; the
registration invariant keeps all lengths equal to `dimension`, where the
two agree. -/
def MatrixKeyServer.matrix_vector_product (s : MatrixKeyServer) (vector : List Nat) :
    List Nat :=
  s.secret_matrix.map fun row =>
    (∑ col in Finset.range s.dimension, row.getD col 0 * vector.getD col 0) % s.prime

/-- `MatrixKeyServer.register_user`: return the existing user unchanged,
or store a fresh secret vector (oracle `sv`, drawn in the source as
`dimension` independent `secrets.randbelow(prime)` values) together with
its public vector `S·sv mod p`. -/
def MatrixKeyServer.register_user (s : MatrixKeyServer) (user_id : String)
    (sv : List Nat) : MatrixUser × MatrixKeyServer :=
  match alookup s.users user_id with
  | some u => (u, s)
  | none =>
      let u : MatrixUser := ⟨user_id, sv, s.matrix_vector_product sv⟩
      (u, { s with users := s.users ++ [(user_id, u)] })

/-- `MatrixKeyServer.get_user`: `KeyError` on an unknown id. -/
def MatrixKeyServer.get_user (s : MatrixKeyServer) (user_id : String) :
    Except KpsError MatrixUser :=
  match alookup s.users user_id with
  | some u => .ok u
  | none => .error .unknownUser

/-- `MatrixKeyServer.compute_shared_value`: look both users up, check the
two vectors used against the configured dimension, then
`sum(s*r for s, r in zip(...)) % prime`. -/
def MatrixKeyServer.compute_shared_value (s : MatrixKeyServer)
    (sender_id receiver_id : String) : Except KpsError Nat := do
  let sender ← s.get_user sender_id
  let receiver ← s.get_user receiver_id
  if sender.secret_vector.length ≠ s.dimension ∨
     receiver.public_vector.length ≠ s.dimension then
    .error .dimensionMismatch
  else
    .ok ((((sender.secret_vector.zip receiver.public_vector).map
            fun p => p.1 * p.2).sum) % s.prime)

deriving instance DecidableEq for Except

/-! ## Reachable states of the matrix scheme and their invariant -/

/-- States of `MatrixKeyServer` reachable by normal operation: a
successful `__init__` followed by `register_user` calls whose oracle
secret vectors honour `secrets.randbelow`'s contract of producing
`dimension` entries. -/
inductive MReach : MatrixKeyServer → Prop where
  | init (prime dimension : Nat) (g : Nat → Nat → Nat) (s : MatrixKeyServer)
      (h : MatrixKeyServer.init prime dimension g = .ok s) : MReach s
  | reg (s : MatrixKeyServer) (user_id : String) (sv : List Nat) (hs : MReach s)
      (hlen : sv.length = s.dimension) : MReach (s.register_user user_id sv).2

/-- The state invariant of the matrix scheme: valid parameters, a
symmetric `dimension × dimension` matrix, and every registered user
holding a `dimension`-length secret vector whose public vector is the
matrix product. -/
def MInv (s : MatrixKeyServer) : Prop :=
  2 < s.prime ∧ 0 < s.dimension ∧
  s.secret_matrix.length = s.dimension ∧
  (∀ row ∈ s.secret_matrix, row.length = s.dimension) ∧
  (∀ i j, i < s.dimension → j < s.dimension →
    (s.secret_matrix.getD i []).getD j 0 = (s.secret_matrix.getD j []).getD i 0) ∧
  (∀ pr ∈ s.users, pr.2.secret_vector.length = s.dimension ∧
    pr.2.public_vector = s.matrix_vector_product pr.2.secret_vector)

/-! ## Reachable states of the pool scheme and their invariant -/

/-- States of `KeyServer` reachable by normal operation: construction,
`generate_key_pool` with `secrets.token_hex` values (contract: valid hex),
and `register_user` with `random.sample` draws (contract: `KEYS_PER_USER`
distinct ids from the current pool).  `replace_state` installs arbitrary
dictionaries and is deliberately outside this relation. -/
inductive PReach : KeyServer → Prop where
  | init (config : KeyDistributionConfig) : PReach (KeyServer.init config)
  | gen (s : KeyServer) (vals : Nat → String) (hs : PReach s)
      (hvals : ∀ i, i < s.config.KEY_POOL_SIZE → (hexDecode (vals i)).isSome) :
      PReach (s.generate_key_pool vals)
  | reg (s : KeyServer) (user_id : String) (draw : Finset Nat) (u : User)
      (s' : KeyServer) (hs : PReach s)
      (hdraw : (∀ id ∈ draw, id ∈ s.keys.map Prod.fst) ∧
        draw.card = s.config.KEYS_PER_USER)
      (hok : s.register_user user_id draw = .ok (u, s')) : PReach s'

/-- The pool-scheme state invariant: the pool is either empty or exactly
the freshly generated contiguous range with hex-decodable values; every
registered user holds `KEYS_PER_USER` ids below `KEY_POOL_SIZE`; and users
exist only once a pool has been generated. -/
def PInv (s : KeyServer) : Prop :=
  (s.keys.map Prod.fst = List.range s.config.KEY_POOL_SIZE ∨ s.keys = []) ∧
  (∀ pr ∈ s.keys, (hexDecode pr.2.value).isSome) ∧
  (∀ pr ∈ s.users, pr.2.key_ids.card = s.config.KEYS_PER_USER ∧
    ∀ id ∈ pr.2.key_ids, id < s.config.KEY_POOL_SIZE) ∧
  (s.users ≠ [] → s.keys.map Prod.fst = List.range s.config.KEY_POOL_SIZE)

/-- Entry oracle reproducing the spec's concrete scenario matrix
`[[3,5],[5,7]]` (upper-triangle draws `g 0 0 = 3`, `g 0 1 = 5`, `g 1 1 = 7`). -/
def mwG : Nat → Nat → Nat := fun i j =>
  if i = 0 ∧ j = 0 then 3 else if i = 1 ∧ j = 1 then 7 else 5

/-- The concrete scenario server: prime 23, dimension 2, matrix `[[3,5],[5,7]]`. -/
def mwS0 : MatrixKeyServer := ⟨23, 2, [[3, 5], [5, 7]], []⟩

/-- The scenario server after registering user A with secret vector `[2,1]`. -/
def mwS1 : MatrixKeyServer := (mwS0.register_user "A" [2, 1]).2

/-- The scenario server after also registering user B with secret vector `[4,3]`. -/
def mwS2 : MatrixKeyServer := (mwS1.register_user "B" [4, 3]).2

/-! ## Reference computation from the spec (refinement target for the
pool-based derivation) and concrete states used by the witnesses -/

/-- The spec's reference concatenation, following its words: for each
common id in the given (ascending) order, take the raw key bytes — the
hex-decoded key value — and concatenate. `none` when a key or its hex
form is unavailable (the spec presupposes both). -/
def specSharedKeyMaterial (s : KeyServer) : List Nat → Option (List Nat)
  | [] => some []
  | id :: rest => do
      let k ← alookup s.keys id
      let bs ← hexDecode k.value
      let tail ← specSharedKeyMaterial s rest
      pure (bs ++ tail)

/-- The spec's reference derivation, following its words: intersect the
two users' key-id sets, sort the common ids in ascending numeric order,
concatenate the raw key bytes in that order, and take the SHA-256 hex
digest; absent when the intersection is empty. -/
def specSharedKeyReference (s : KeyServer) (a b : String) : Option String := do
  let ua ← s.get_user a
  let ub ← s.get_user b
  let common := ua.key_ids ∩ ub.key_ids
  if common = ∅ then none
  else do
    let material ← specSharedKeyMaterial s (common.sort (· ≤ ·))
    pure (sha256hex material)

/-- A state installed by `replace_state` with an empty key pool but a
registered user — the configuration under which the idempotence claim
fails on the code. -/
def c3S : KeyServer :=
  (KeyServer.init {}).replace_state [] [("a", ⟨"a", {0}⟩)]

/-- A small concrete pool configuration used by the witnesses. -/
def pwCfg : KeyDistributionConfig := { KEY_POOL_SIZE := 2, KEYS_PER_USER := 1 }

/-- Concrete `secrets.token_hex(16)` oracle values. -/
def pwVals : Nat → String := fun _ => "00112233445566778899aabbccddeeff"

/-- Fresh server with the small configuration. -/
def pwS0 : KeyServer := KeyServer.init pwCfg

/-- The small server after `generate_key_pool`. -/
def pwS1 : KeyServer := pwS0.generate_key_pool pwVals

/-- After registering "alice" with draw `{0}`. -/
def pwS2 : KeyServer :=
  { pwS1 with users := pwS1.users ++ [("alice", ⟨"alice", {0}⟩)] }

/-- After also registering "bob" with draw `{1}` (disjoint from alice). -/
def pwS3 : KeyServer :=
  { pwS2 with users := pwS2.users ++ [("bob", ⟨"bob", {1}⟩)] }

/-- After also registering "carol" with draw `{0}` (overlapping alice). -/
def pwS4 : KeyServer :=
  { pwS3 with users := pwS3.users ++ [("carol", ⟨"carol", {0}⟩)] }

/-- An (unreachable) matrix state with a wrong-length stored secret
vector, exercising the defensive dimension check. -/
def c9M : MatrixKeyServer :=
  ⟨23, 2, [[3, 5], [5, 7]],
    [("X", ⟨"X", [1], [2, 3]⟩), ("Y", ⟨"Y", [1, 2], [3, 4]⟩)]⟩


/-! ## Helper lemmas -/

theorem alookup_mem {α β : Type} [DecidableEq α] {l : List (α × β)} {k : α} {v : β}
    (h : alookup l k = some v) : (k, v) ∈ l := by
  induction l with
  | nil => simp [alookup] at h
  | cons hd tl ih =>
      obtain ⟨k', v'⟩ := hd
      by_cases hk : k' = k
      · subst hk
        simp [alookup] at h
        subst h
        exact List.mem_cons_self ..
      · simp [alookup, hk] at h
        exact List.mem_cons_of_mem _ (ih h)

theorem alookup_isSome_of_mem_fst {α β : Type} [DecidableEq α] {l : List (α × β)} {k : α}
    (h : k ∈ l.map Prod.fst) : (alookup l k).isSome := by
  induction l with
  | nil => simp at h
  | cons hd tl ih =>
      obtain ⟨k', v'⟩ := hd
      by_cases hk : k' = k
      · simp [alookup, hk]
      · have h' : k ∈ tl.map Prod.fst := by
          simp only [List.map_cons, List.mem_cons] at h
          rcases h with h | h
          · exact absurd h.symm hk
          · exact h
        simpa [alookup, hk] using ih h'

theorem getD_map_range {α : Type} (n i : Nat) (f : Nat → α) (d : α) (h : i < n) :
    ((List.range n).map f).getD i d = f i := by
  rw [List.getD_eq_getElem?_getD, List.getElem?_map, List.getElem?_range h]
  rfl

theorem getD_map {α β : Type} (l : List α) (f : α → β) (i : Nat) (dβ : β) (dα : α)
    (h : i < l.length) : (l.map f).getD i dβ = f (l.getD i dα) := by
  rw [List.getD_eq_getElem?_getD, List.getElem?_map, List.getD_eq_getElem?_getD,
    List.getElem?_eq_getElem h]
  rfl

theorem zipMulSum_eq_sum_range (u v : List Nat) :
    ((u.zip v).map fun p => p.1 * p.2).sum =
      ∑ i in Finset.range (min u.length v.length), u.getD i 0 * v.getD i 0 := by
  induction u generalizing v with
  | nil => simp
  | cons x u' ih =>
      cases v with
      | nil => simp
      | cons y v' =>
          simp only [List.zip_cons_cons, List.map_cons, List.sum_cons, List.length_cons,
            Nat.succ_min_succ]
          rw [Finset.sum_range_succ' (fun i => (x :: u').getD i 0 * (y :: v').getD i 0)]
          simp only [List.getD_cons_succ, List.getD_cons_zero]
          rw [ih v']
          omega

theorem generate_symmetric_matrix_entry (dimension : Nat) (g : Nat → Nat → Nat)
    (i j : Nat) (hi : i < dimension) (hj : j < dimension) :
    ((generate_symmetric_matrix dimension g).getD i []).getD j 0 =
      if i ≤ j then g i j else g j i := by
  unfold generate_symmetric_matrix
  rw [getD_map_range dimension i _ _ hi, getD_map_range dimension j _ _ hj]

theorem register_user_fields (s : MatrixKeyServer) (user_id : String) (sv : List Nat) :
    (s.register_user user_id sv).2.prime = s.prime ∧
    (s.register_user user_id sv).2.dimension = s.dimension ∧
    (s.register_user user_id sv).2.secret_matrix = s.secret_matrix := by
  unfold MatrixKeyServer.register_user
  cases alookup s.users user_id <;> simp

theorem mreach_minv (s : MatrixKeyServer) (hs : MReach s) : MInv s := by
  induction hs with
  | init prime dimension g s h =>
      unfold MatrixKeyServer.init at h
      by_cases h1 : prime ≤ 2
      · simp [h1] at h
      by_cases h2 : dimension ≤ 0
      · simp [h1, h2] at h
      simp only [if_neg h1, if_neg h2] at h
      cases h
      unfold MInv
      dsimp only
      refine ⟨by omega, by omega, ?_, ?_, ?_, ?_⟩
      · simp [generate_symmetric_matrix]
      · intro row hrow
        simp only [generate_symmetric_matrix, List.mem_map] at hrow
        obtain ⟨i, _, rfl⟩ := hrow
        simp
      · intro i j hi hj
        rw [generate_symmetric_matrix_entry _ _ _ _ hi hj,
          generate_symmetric_matrix_entry _ _ _ _ hj hi]
        rcases Nat.lt_trichotomy i j with hlt | heq | hgt
        · rw [if_pos (Nat.le_of_lt hlt), if_neg (by omega)]
        · subst heq
          simp
        · rw [if_neg (by omega), if_pos (Nat.le_of_lt hgt)]
      · simp
  | reg s user_id sv hs hlen ih =>
      obtain ⟨hp, hd, hml, hrl, hsym, husers⟩ := ih
      unfold MatrixKeyServer.register_user
      cases hu : alookup s.users user_id with
      | some u => exact ⟨hp, hd, hml, hrl, hsym, husers⟩
      | none =>
          refine ⟨hp, hd, hml, hrl, hsym, ?_⟩
          intro pr hpr
          simp only [List.mem_append, List.mem_singleton] at hpr
          rcases hpr with hpr | hpr
          · exact husers pr hpr
          · subst hpr
            exact ⟨hlen, rfl⟩

theorem matvec_getD (s : MatrixKeyServer) (v : List Nat) (i : Nat)
    (hi : i < s.secret_matrix.length) :
    (s.matrix_vector_product v).getD i 0 =
      (∑ col in Finset.range s.dimension,
        (s.secret_matrix.getD i []).getD col 0 * v.getD col 0) % s.prime := by
  unfold MatrixKeyServer.matrix_vector_product
  exact getD_map s.secret_matrix _ i 0 [] hi

theorem bilinear_symm (d p : Nat) (M : Nat → Nat → Nat) (xa xb : Nat → Nat)
    (hsym : ∀ i j, i < d → j < d → M i j = M j i) :
    (∑ i in Finset.range d, xa i * ((∑ j in Finset.range d, M i j * xb j) % p)) % p =
    (∑ i in Finset.range d, xb i * ((∑ j in Finset.range d, M i j * xa j) % p)) % p := by
  have cast_side : ∀ u v : Nat → Nat,
      ((∑ i in Finset.range d, u i * ((∑ j in Finset.range d, M i j * v j) % p) : Nat) :
        ZMod p) =
      ∑ i in Finset.range d, ∑ j in Finset.range d,
        (u i : ZMod p) * (M i j : ZMod p) * (v j : ZMod p) := by
    intro u v
    rw [Nat.cast_sum]
    refine Finset.sum_congr rfl fun i _ => ?_
    rw [Nat.cast_mul, ZMod.natCast_mod, Nat.cast_sum, Finset.mul_sum]
    refine Finset.sum_congr rfl fun j _ => ?_
    rw [Nat.cast_mul]
    ring
  refine (ZMod.natCast_eq_natCast_iff' _ _ p).mp ?_
  rw [cast_side xa xb, cast_side xb xa, Finset.sum_comm]
  refine Finset.sum_congr rfl fun j hj => Finset.sum_congr rfl fun i hi => ?_
  rw [hsym i j (Finset.mem_range.mp hi) (Finset.mem_range.mp hj)]
  ring

theorem except_bind_ok {ε α β : Type} (a : α) (f : α → Except ε β) :
    (Except.ok a : Except ε α) >>= f = f a := rfl

theorem except_bind_error {ε α β : Type} (e : ε) (f : α → Except ε β) :
    (Except.error e : Except ε α) >>= f = .error e := rfl

theorem compute_shared_value_ok (s : MatrixKeyServer) (hinv : MInv s)
    (a b : String) (ua ub : MatrixUser)
    (ha : alookup s.users a = some ua) (hb : alookup s.users b = some ub) :
    s.compute_shared_value a b =
      .ok ((∑ i in Finset.range s.dimension,
        ua.secret_vector.getD i 0 *
          ((∑ j in Finset.range s.dimension,
            (s.secret_matrix.getD i []).getD j 0 * ub.secret_vector.getD j 0) %
              s.prime)) % s.prime) := by
  obtain ⟨hp, hd, hml, hrl, hsym, husers⟩ := hinv
  have halen : ua.secret_vector.length = s.dimension :=
    (husers (a, ua) (alookup_mem ha)).1
  have hbpub : ub.public_vector = s.matrix_vector_product ub.secret_vector :=
    (husers (b, ub) (alookup_mem hb)).2
  have hpublen : ub.public_vector.length = s.dimension := by
    rw [hbpub]
    unfold MatrixKeyServer.matrix_vector_product
    rw [List.length_map, hml]
  have hcond : ¬(ua.secret_vector.length ≠ s.dimension ∨
      ub.public_vector.length ≠ s.dimension) := by
    push_neg
    exact ⟨halen, hpublen⟩
  simp only [MatrixKeyServer.compute_shared_value, MatrixKeyServer.get_user, ha, hb,
    except_bind_ok, if_neg hcond]
  rw [zipMulSum_eq_sum_range, halen, hpublen, Nat.min_self]
  congr 1
  congr 1
  refine Finset.sum_congr rfl fun i hi => ?_
  congr 1
  rw [hbpub, matvec_getD s ub.secret_vector i (by rw [hml]; exact Finset.mem_range.mp hi)]

/-- C1: for every reachable `MatrixKeyServer` state and every pair of
registered users `a`, `b`, `compute_shared_value(a,b)` equals
`compute_shared_value(b,a)` exactly, as integers modulo the prime. -/
theorem C1_shared_value_symmetric (s : MatrixKeyServer) (hs : MReach s)
    (a b : String) (ua ub : MatrixUser)
    (ha : alookup s.users a = some ua) (hb : alookup s.users b = some ub) :
    s.compute_shared_value a b = s.compute_shared_value b a := by
  have hinv := mreach_minv s hs
  rw [compute_shared_value_ok s hinv a b ua ub ha hb,
    compute_shared_value_ok s hinv b a ub ua hb ha]
  exact congrArg Except.ok
    (bilinear_symm s.dimension s.prime
      (fun i j => (s.secret_matrix.getD i []).getD j 0)
      (fun i => ua.secret_vector.getD i 0) (fun i => ub.secret_vector.getD i 0)
      hinv.2.2.2.2.1)

theorem mwS2_reach : MReach mwS2 :=
  MReach.reg mwS1 "B" [4, 3]
    (MReach.reg mwS0 "A" [2, 1] (MReach.init 23 2 mwG mwS0 (by decide)) (by decide))
    (by decide)

theorem C1_witness :
    mwS2.compute_shared_value "A" "B" = mwS2.compute_shared_value "B" "A" :=
  C1_shared_value_symmetric mwS2 mwS2_reach "A" "B"
    ⟨"A", [2, 1], [11, 17]⟩ ⟨"B", [4, 3], [4, 18]⟩ (by decide) (by decide)

/-- C6: in every reachable matrix-scheme state the stored public vector is
the symmetric matrix times the secret vector, entrywise mod the prime; and
the spec's concrete scenario (prime 23, dimension 2, matrix `[[3,5],[5,7]]`,
secrets `[2,1]` and `[4,3]`) yields public vectors `[11,17]` and `[4,18]`
and shared value 3 in both directions. -/
theorem C6_public_vector_correct (s : MatrixKeyServer) (hs : MReach s)
    (uid : String) (u : MatrixUser) (hu : alookup s.users uid = some u) :
    (u.public_vector = s.matrix_vector_product u.secret_vector ∧
      u.secret_vector.length = s.dimension ∧
      (∀ x ∈ u.public_vector, x < s.prime)) ∧
    (mwS0.matrix_vector_product [2, 1] = [11, 17] ∧
      mwS0.matrix_vector_product [4, 3] = [4, 18] ∧
      mwS2.users = [("A", ⟨"A", [2, 1], [11, 17]⟩), ("B", ⟨"B", [4, 3], [4, 18]⟩)] ∧
      mwS2.compute_shared_value "A" "B" = .ok 3 ∧
      mwS2.compute_shared_value "B" "A" = .ok 3) := by
  have hinv := mreach_minv s hs
  constructor
  · have hu' := hinv.2.2.2.2.2 (uid, u) (alookup_mem hu)
    refine ⟨hu'.2, hu'.1, ?_⟩
    intro x hx
    rw [hu'.2] at hx
    unfold MatrixKeyServer.matrix_vector_product at hx
    simp only [List.mem_map] at hx
    obtain ⟨row, _, rfl⟩ := hx
    have hp := hinv.1
    exact Nat.mod_lt _ (by omega)
  · refine ⟨by decide, by decide, by decide, by decide, by decide⟩

theorem C6_witness :
    ((⟨"A", [2, 1], [11, 17]⟩ : MatrixUser).public_vector =
        mwS2.matrix_vector_product [2, 1] ∧
      ([2, 1] : List Nat).length = mwS2.dimension ∧
      (∀ x ∈ ([11, 17] : List Nat), x < mwS2.prime)) ∧
    mwS2.compute_shared_value "A" "B" = .ok 3 := by
  have h := C6_public_vector_correct mwS2 mwS2_reach "A" ⟨"A", [2, 1], [11, 17]⟩ (by decide)
  exact ⟨h.1, h.2.2.2.2.1⟩

/-- C8: `MatrixKeyServer.__init__` fails with `InvalidParameters` exactly
when `prime ≤ 2` or `dimension ≤ 0`; otherwise it succeeds with a
symmetric `dimension × dimension` matrix whose entries (drawn below the
prime, per the `secrets.randbelow` contract `hg`) all lie in `[0, prime)`;
and no `register_user` call ever changes the matrix, prime, or dimension
(`compute_shared_value` returns a scalar and leaves the state untouched by
construction). -/
theorem C8_init_validation (prime dimension : Nat) (g : Nat → Nat → Nat)
    (hg : ∀ i j, g i j < prime) :
    (prime ≤ 2 ∨ dimension ≤ 0 →
      MatrixKeyServer.init prime dimension g = .error .invalidParameters) ∧
    (2 < prime → 0 < dimension →
      ∃ s, MatrixKeyServer.init prime dimension g = .ok s ∧
        s.prime = prime ∧ s.dimension = dimension ∧ s.users = [] ∧
        s.secret_matrix.length = dimension ∧
        (∀ row ∈ s.secret_matrix, row.length = dimension) ∧
        (∀ i j, i < dimension → j < dimension →
          (s.secret_matrix.getD i []).getD j 0 =
            (s.secret_matrix.getD j []).getD i 0) ∧
        (∀ row ∈ s.secret_matrix, ∀ x ∈ row, x < prime)) ∧
    (∀ (t : MatrixKeyServer) (user_id : String) (sv : List Nat),
      (t.register_user user_id sv).2.prime = t.prime ∧
      (t.register_user user_id sv).2.dimension = t.dimension ∧
      (t.register_user user_id sv).2.secret_matrix = t.secret_matrix) := by
  refine ⟨?_, ?_, ?_⟩
  · intro h
    unfold MatrixKeyServer.init
    rcases h with h | h
    · rw [if_pos h]
    · by_cases h1 : prime ≤ 2
      · rw [if_pos h1]
      · rw [if_neg h1, if_pos h]
  · intro h1 h2
    have hs : MatrixKeyServer.init prime dimension g =
        .ok ⟨prime, dimension, generate_symmetric_matrix dimension g, []⟩ := by
      unfold MatrixKeyServer.init
      rw [if_neg (by omega), if_neg (by omega)]
    refine ⟨_, hs, rfl, rfl, rfl, by simp [generate_symmetric_matrix], ?_, ?_, ?_⟩
    · intro row hrow
      simp only [generate_symmetric_matrix, List.mem_map] at hrow
      obtain ⟨i, _, rfl⟩ := hrow
      simp
    · intro i j hi hj
      rw [generate_symmetric_matrix_entry _ _ _ _ hi hj,
        generate_symmetric_matrix_entry _ _ _ _ hj hi]
      rcases Nat.lt_trichotomy i j with hlt | heq | hgt
      · rw [if_pos (Nat.le_of_lt hlt), if_neg (by omega)]
      · subst heq
        simp
      · rw [if_neg (by omega), if_pos (Nat.le_of_lt hgt)]
    · intro row hrow x hx
      simp only [generate_symmetric_matrix, List.mem_map] at hrow
      obtain ⟨i, _, rfl⟩ := hrow
      simp only [List.mem_map] at hx
      obtain ⟨j, _, rfl⟩ := hx
      by_cases hij : i ≤ j
      · rw [if_pos hij]
        exact hg i j
      · rw [if_neg hij]
        exact hg j i
  · intro t user_id sv
    exact ⟨(register_user_fields t user_id sv).1, (register_user_fields t user_id sv).2.1,
      (register_user_fields t user_id sv).2.2⟩

theorem C8_witness :
    MatrixKeyServer.init 2 2 (fun _ _ => 0) = .error .invalidParameters ∧
    ∃ s, MatrixKeyServer.init 23 2 mwG = .ok s ∧ s.prime = 23 ∧ s.dimension = 2 := by
  constructor
  · exact (C8_init_validation 2 2 (fun _ _ => 0) (fun i j => by norm_num)).1
      (Or.inl (by norm_num))
  · obtain ⟨s, h1, h2, h3, _⟩ :=
      (C8_init_validation 23 2 mwG
        (fun i j => by unfold mwG; split <;> [norm_num; split <;> norm_num])).2.1
        (by norm_num) (by norm_num)
    exact ⟨s, h1, h2, h3⟩

theorem generate_key_pool_fields (s : KeyServer) (vals : Nat → String) :
    (s.generate_key_pool vals).users = s.users ∧
    (s.generate_key_pool vals).config = s.config ∧
    (s.generate_key_pool vals).keys =
      (List.range s.config.KEY_POOL_SIZE).map fun i => (i, ⟨i, vals i⟩) :=
  ⟨rfl, rfl, rfl⟩

theorem generate_key_pool_ids (s : KeyServer) (vals : Nat → String) :
    (s.generate_key_pool vals).keys.map Prod.fst =
      List.range s.config.KEY_POOL_SIZE := by
  unfold KeyServer.generate_key_pool
  have hcomp : (Prod.fst ∘ fun i => ((i : Nat), (⟨i, vals i⟩ : Key))) = id := rfl
  rw [List.map_map, hcomp, List.map_id]

theorem preach_pinv (s : KeyServer) (hs : PReach s) : PInv s := by
  induction hs with
  | init config => exact ⟨Or.inr rfl, by simp [KeyServer.init], by simp [KeyServer.init],
      by simp [KeyServer.init]⟩
  | gen s vals hs hvals ih =>
      obtain ⟨hkeys, hhex, husers, hne⟩ := ih
      refine ⟨Or.inl (generate_key_pool_ids s vals), ?_, husers, ?_⟩
      · intro pr hpr
        simp only [KeyServer.generate_key_pool, List.mem_map, List.mem_range] at hpr
        obtain ⟨i, hi, rfl⟩ := hpr
        exact hvals i hi
      · intro _
        exact generate_key_pool_ids s vals
  | reg s user_id draw u s' hs hdraw hok ih =>
      obtain ⟨hkeys, hhex, husers, hne⟩ := ih
      unfold KeyServer.register_user at hok
      by_cases hk : s.keys = []
      · rw [if_pos hk] at hok
        exact absurd hok (by simp)
      rw [if_neg hk] at hok
      have hrange : s.keys.map Prod.fst = List.range s.config.KEY_POOL_SIZE := by
        rcases hkeys with h | h
        · exact h
        · exact absurd h hk
      cases hu : alookup s.users user_id with
      | some u₀ =>
          rw [hu] at hok
          obtain ⟨rfl, rfl⟩ : u₀ = u ∧ s = s' := by
            cases hok
            exact ⟨rfl, rfl⟩
          exact ⟨hkeys, hhex, husers, hne⟩
      | none =>
          rw [hu] at hok
          by_cases hins : s.config.KEYS_PER_USER > s.keys.length
          · rw [if_pos hins] at hok
            exact absurd hok (by simp)
          rw [if_neg hins] at hok
          obtain ⟨rfl, rfl⟩ :
              (⟨user_id, draw⟩ : User) = u ∧
                ({ s with users := s.users ++ [(user_id, ⟨user_id, draw⟩)] } : KeyServer)
                  = s' := by
            cases hok
            exact ⟨rfl, rfl⟩
          refine ⟨hkeys, hhex, ?_, fun _ => hrange⟩
          intro pr hpr
          simp only [List.mem_append, List.mem_singleton] at hpr
          rcases hpr with hpr | hpr
          · exact husers pr hpr
          · subst hpr
            refine ⟨hdraw.2, ?_⟩
            intro id hid
            have := hdraw.1 id hid
            rw [hrange, List.mem_range] at this
            exact this

theorem option_bind_some {α β : Type} (a : α) (f : α → Option β) :
    ((some a : Option α) >>= f) = f a := rfl

theorem alookup_append_of_none {α β : Type} [DecidableEq α] {l₁ : List (α × β)}
    (l₂ : List (α × β)) (k : α) (h : alookup l₁ k = none) :
    alookup (l₁ ++ l₂) k = alookup l₂ k := by
  induction l₁ with
  | nil => rfl
  | cons hd tl ih =>
      obtain ⟨k', v'⟩ := hd
      by_cases hk : k' = k
      · simp [alookup, hk] at h
      · simp only [alookup, hk, if_false] at h ⊢
        exact ih h

theorem hexChars_length (bs : List Nat) : (hexChars bs).length = 2 * bs.length := by
  induction bs with
  | nil => rfl
  | cons b bs ih =>
      simp only [hexChars, List.flatMap_cons] at ih ⊢
      simp only [List.length_append, List.length_cons, List.length_nil] at ih ⊢
      omega

theorem hexVal_nibbleChar : ∀ n, n < 16 → hexVal (nibbleChar n) = some n := by decide

theorem hexDecodeAux_hexChars (bs : List Nat) (h : ∀ b ∈ bs, b < 256) :
    hexDecodeAux (hexChars bs) = some bs := by
  induction bs with
  | nil => rfl
  | cons b bs ih =>
      have hb : b < 256 := h b (List.mem_cons_self ..)
      have hchars : hexChars (b :: bs) =
          nibbleChar (b / 16) :: nibbleChar (b % 16) :: hexChars bs := by
        simp [hexChars]
      rw [hchars]
      show (do
        let hi ← hexVal (nibbleChar (b / 16))
        let lo ← hexVal (nibbleChar (b % 16))
        let tail ← hexDecodeAux (hexChars bs)
        pure ((hi * 16 + lo) :: tail)) = some (b :: bs)
      rw [hexVal_nibbleChar (b / 16) (by omega), hexVal_nibbleChar (b % 16) (by omega),
        ih (fun x hx => h x (List.mem_cons_of_mem _ hx))]
      simp only [option_bind_some]
      have : b / 16 * 16 + b % 16 = b := by omega
      rw [this]
      rfl

theorem hexDecode_hexEncode (bs : List Nat) (h : ∀ b ∈ bs, b < 256) :
    hexDecode (hexEncode bs) = some bs :=
  hexDecodeAux_hexChars bs h

theorem sha256bytes_length (msg : List Nat) : (sha256bytes msg).length = 32 := by
  unfold sha256bytes
  rw [List.length_flatten, List.map_map]
  have : (List.length ∘ fun i =>
      wordToBytes ((sha256Chunks sha256H0 (sha256Pad msg)).getD i 0)) = fun _ => 4 := rfl
  rw [this]
  rfl

theorem sha256bytes_lt (msg : List Nat) : ∀ x ∈ sha256bytes msg, x < 256 := by
  intro x hx
  unfold sha256bytes at hx
  rw [List.mem_flatten] at hx
  obtain ⟨l, hl, hxl⟩ := hx
  rw [List.mem_map] at hl
  obtain ⟨i, _, rfl⟩ := hl
  unfold wordToBytes at hxl
  simp only [List.mem_cons, List.not_mem_nil, or_false] at hxl
  rcases hxl with rfl | rfl | rfl | rfl <;> exact Nat.mod_lt _ (by norm_num)

theorem sha256hex_length (msg : List Nat) : (sha256hex msg).length = 64 := by
  show (hexChars (sha256bytes msg)).length = 64
  rw [hexChars_length, sha256bytes_length]

theorem hexChars_isSome_hexVal (bs : List Nat) (h : ∀ b ∈ bs, b < 256) :
    ∀ c ∈ hexChars bs, (hexVal c).isSome := by
  intro c hc
  unfold hexChars at hc
  rw [List.mem_flatMap] at hc
  obtain ⟨b, hbmem, hcb⟩ := hc
  have hb := h b hbmem
  simp only [List.mem_cons, List.not_mem_nil, or_false] at hcb
  rcases hcb with rfl | rfl
  · rw [hexVal_nibbleChar (b / 16) (by omega)]
    rfl
  · rw [hexVal_nibbleChar (b % 16) (by omega)]
    rfl

theorem gatherMaterial_ok (s : KeyServer) (l : List Nat)
    (h : ∀ id ∈ l, ∃ k, alookup s.keys id = some k ∧ (hexDecode k.value).isSome) :
    ∃ m, SharedKeyService.gatherMaterial s l = .ok m ∧
      specSharedKeyMaterial s l = some m := by
  induction l with
  | nil => exact ⟨[], rfl, rfl⟩
  | cons id rest ih =>
      obtain ⟨k, hk, hhex⟩ := h id (List.mem_cons_self ..)
      obtain ⟨bs, hbs⟩ := Option.isSome_iff_exists.mp hhex
      obtain ⟨m, hm1, hm2⟩ := ih (fun i hi => h i (List.mem_cons_of_mem _ hi))
      refine ⟨bs ++ m, ?_, ?_⟩
      · unfold SharedKeyService.gatherMaterial KeyServer.get_key_value
        rw [hk]
        simp only [Option.map_some']
        rw [hbs, hm1]
        rfl
      · unfold specSharedKeyMaterial
        rw [hk]
        simp only [option_bind_some]
        rw [hbs]
        simp only [option_bind_some]
        rw [hm2]
        rfl

theorem pinv_keys_available (s : KeyServer) (hs : PReach s) (uid : String) (u : User)
    (hu : s.get_user uid = some u) :
    ∀ id ∈ u.key_ids, ∃ k, alookup s.keys id = some k ∧ (hexDecode k.value).isSome := by
  obtain ⟨hkeys, hhex, husers, hne⟩ := preach_pinv s hs
  intro id hid
  have hmem : (uid, u) ∈ s.users := alookup_mem hu
  have hidlt : id < s.config.KEY_POOL_SIZE := (husers (uid, u) hmem).2 id hid
  have hrange := hne (List.ne_nil_of_mem hmem)
  have hidmem : id ∈ s.keys.map Prod.fst := by
    rw [hrange]
    exact List.mem_range.mpr hidlt
  obtain ⟨k, hk⟩ := Option.isSome_iff_exists.mp (alookup_isSome_of_mem_fst hidmem)
  exact ⟨k, hk, hhex (id, k) (alookup_mem hk)⟩

theorem compute_shared_key_ok (s : KeyServer) (a b : String) (ua ub : User)
    (ha : s.get_user a = some ua) (hb : s.get_user b = some ub)
    (hne : ua.key_ids ∩ ub.key_ids ≠ ∅)
    (hkeys : ∀ id ∈ ua.key_ids ∩ ub.key_ids,
      ∃ k, alookup s.keys id = some k ∧ (hexDecode k.value).isSome) :
    ∃ m, SharedKeyService.gatherMaterial s
        ((ua.key_ids ∩ ub.key_ids).sort (· ≤ ·)) = .ok m ∧
      specSharedKeyMaterial s ((ua.key_ids ∩ ub.key_ids).sort (· ≤ ·)) = some m ∧
      SharedKeyService.compute_shared_key s a b = .ok (some (sha256hex m)) ∧
      specSharedKeyReference s a b = some (sha256hex m) := by
  obtain ⟨m, hg, hsp⟩ := gatherMaterial_ok s ((ua.key_ids ∩ ub.key_ids).sort (· ≤ ·))
    (fun id hid => hkeys id ((Finset.mem_sort _).mp hid))
  refine ⟨m, hg, hsp, ?_, ?_⟩
  · simp only [SharedKeyService.compute_shared_key, SharedKeyService.common_key_ids,
      ha, hb, except_bind_ok, if_neg hne, hg]
    rfl
  · simp only [specSharedKeyReference, ha, hb, option_bind_some, if_neg hne, hsp]
    rfl

theorem pwS2_reach : PReach pwS2 :=
  PReach.reg pwS1 "alice" {0} ⟨"alice", {0}⟩ pwS2
    (PReach.gen pwS0 pwVals (PReach.init pwCfg) (by decide))
    ⟨by decide, by decide⟩ (by decide)

theorem pwS3_reach : PReach pwS3 :=
  PReach.reg pwS2 "bob" {1} ⟨"bob", {1}⟩ pwS3 pwS2_reach
    ⟨by decide, by decide⟩ (by decide)

theorem pwS4_reach : PReach pwS4 :=
  PReach.reg pwS3 "carol" {0} ⟨"carol", {0}⟩ pwS4 pwS3_reach
    ⟨by decide, by decide⟩ (by decide)

/-- C2: for every state and every pair of registered users with a
non-empty key-id intersection whose common keys are present with valid
hex values (always the case in reachable states), `compute_shared_key`
equals the spec's reference computation — intersect, sort ascending,
concatenate the hex-decoded raw key bytes, SHA-256 hex digest of 64 hex
characters; `compute_shared_key_bytes` is the raw 32-byte form of the
same digest.  Repeated calls are identical because the embedding is a
pure function of the state. -/
theorem C2_shared_key_matches_reference (s : KeyServer) (a b : String) (ua ub : User)
    (ha : s.get_user a = some ua) (hb : s.get_user b = some ub)
    (hne : ua.key_ids ∩ ub.key_ids ≠ ∅)
    (hkeys : ∀ id ∈ ua.key_ids ∩ ub.key_ids,
      ∃ k, alookup s.keys id = some k ∧ (hexDecode k.value).isSome) :
    ∃ m, SharedKeyService.compute_shared_key s a b = .ok (some (sha256hex m)) ∧
      specSharedKeyReference s a b = some (sha256hex m) ∧
      specSharedKeyMaterial s ((ua.key_ids ∩ ub.key_ids).sort (· ≤ ·)) = some m ∧
      SharedKeyService.compute_shared_key_bytes s a b = .ok (some (sha256bytes m)) ∧
      hexDecode (sha256hex m) = some (sha256bytes m) ∧
      (sha256hex m).length = 64 ∧
      (∀ c ∈ (sha256hex m).data, (hexVal c).isSome) ∧
      (sha256bytes m).length = 32 := by
  obtain ⟨m, hg, hsp, hck, href⟩ := compute_shared_key_ok s a b ua ub ha hb hne hkeys
  have hround : hexDecode (sha256hex m) = some (sha256bytes m) :=
    hexDecode_hexEncode (sha256bytes m) (sha256bytes_lt m)
  refine ⟨m, hck, href, hsp, ?_, hround, sha256hex_length m, ?_, sha256bytes_length m⟩
  · unfold SharedKeyService.compute_shared_key_bytes
    rw [hck]
    simp only [except_bind_ok]
    rw [hround]
    rfl
  · exact hexChars_isSome_hexVal (sha256bytes m) (sha256bytes_lt m)

theorem C2_witness :
    ∃ m, SharedKeyService.compute_shared_key pwS4 "alice" "carol" =
        .ok (some (sha256hex m)) ∧
      specSharedKeyReference pwS4 "alice" "carol" = some (sha256hex m) ∧
      (sha256hex m).length = 64 := by
  obtain ⟨m, h1, h2, _, _, _, h6, _⟩ :=
    C2_shared_key_matches_reference pwS4 "alice" "carol" ⟨"alice", {0}⟩ ⟨"carol", {0}⟩
      (by decide) (by decide) (by decide)
      (fun id hid => by
        have h0 : id = 0 := by simpa using hid
        subst h0
        exact ⟨⟨0, pwVals 0⟩, by decide, by decide⟩)
  exact ⟨m, h1, h2, h6⟩

/-- C7: for registered users in a reachable state, an empty key-id
intersection yields the explicit absent value `none` from both
`compute_shared_key` and `compute_shared_key_bytes` — never an error and
never the hash of empty input — and a `some` result is returned exactly
when the intersection is non-empty. -/
theorem C7_empty_intersection_none (s : KeyServer) (hs : PReach s) (a b : String)
    (ua ub : User) (ha : s.get_user a = some ua) (hb : s.get_user b = some ub) :
    (ua.key_ids ∩ ub.key_ids = ∅ →
      SharedKeyService.compute_shared_key s a b = .ok none ∧
      SharedKeyService.compute_shared_key_bytes s a b = .ok none) ∧
    ((∃ r, SharedKeyService.compute_shared_key s a b = .ok (some r)) ↔
      ua.key_ids ∩ ub.key_ids ≠ ∅) := by
  have hempty : ua.key_ids ∩ ub.key_ids = ∅ →
      SharedKeyService.compute_shared_key s a b = .ok none := by
    intro h
    simp only [SharedKeyService.compute_shared_key, SharedKeyService.common_key_ids,
      ha, hb, except_bind_ok, if_pos h]
    rfl
  refine ⟨?_, ?_, ?_⟩
  · intro h
    refine ⟨hempty h, ?_⟩
    unfold SharedKeyService.compute_shared_key_bytes
    rw [hempty h]
    rfl
  · rintro ⟨r, hr⟩ hcon
    rw [hempty hcon] at hr
    exact Option.noConfusion (Except.ok.inj hr)
  · intro hne
    have hkeys : ∀ id ∈ ua.key_ids ∩ ub.key_ids,
        ∃ k, alookup s.keys id = some k ∧ (hexDecode k.value).isSome := fun id hid =>
      pinv_keys_available s hs a ua ha id (Finset.mem_inter.mp hid).1
    obtain ⟨m, _, _, hck, _⟩ := compute_shared_key_ok s a b ua ub ha hb hne hkeys
    exact ⟨sha256hex m, hck⟩

theorem C7_witness :
    SharedKeyService.compute_shared_key pwS3 "alice" "bob" = .ok none ∧
    SharedKeyService.compute_shared_key_bytes pwS3 "alice" "bob" = .ok none := by
  have h := C7_empty_intersection_none pwS3 pwS3_reach "alice" "bob"
    ⟨"alice", {0}⟩ ⟨"bob", {1}⟩ (by decide) (by decide)
  exact h.1 (by decide)

/-- C3 counterexample: in the state installed by `replace_state` with an
empty key pool and a registered user "a", re-registering "a" raises
`EmptyPool` instead of returning the existing assignment, because the
source checks `if not self._keys` before the existing-user
short-circuit. -/
theorem C3_counterexample :
    c3S.get_user "a" = some ⟨"a", {0}⟩ ∧
    c3S.register_user "a" {0} = .error .emptyPool := by
  constructor
  · decide
  · decide

/-- C3 (amended): re-registering an already registered user returns the
existing assignment unchanged and modifies nothing — unconditionally for
the matrix scheme, and for the pool scheme in every state whose key pool
is non-empty (which covers every state reachable without
`replace_state`); in a state with an empty key pool (installable only via
`replace_state`), the pool scheme instead fails with `EmptyPool`, still
leaving the state unchanged. -/
theorem C3_register_idempotent (s : KeyServer) (user_id : String) (u : User)
    (draw : Finset Nat) (hu : s.get_user user_id = some u)
    (ms : MatrixKeyServer) (m_id : String) (muser : MatrixUser) (sv : List Nat)
    (hmu : alookup ms.users m_id = some muser) :
    (s.keys ≠ [] → s.register_user user_id draw = .ok (u, s)) ∧
    (s.keys = [] → s.register_user user_id draw = .error .emptyPool) ∧
    ms.register_user m_id sv = (muser, ms) := by
  have hu' : alookup s.users user_id = some u := hu
  refine ⟨?_, ?_, ?_⟩
  · intro hk
    simp only [KeyServer.register_user, if_neg hk, hu']
  · intro hk
    simp only [KeyServer.register_user, if_pos hk]
  · simp only [MatrixKeyServer.register_user, hmu]

theorem C3_witness :
    pwS2.register_user "alice" {1} = .ok (⟨"alice", {0}⟩, pwS2) ∧
    mwS2.register_user "A" [9, 9] = (⟨"A", [2, 1], [11, 17]⟩, mwS2) := by
  have h := C3_register_idempotent pwS2 "alice" ⟨"alice", {0}⟩ {1} (by decide)
    mwS2 "A" ⟨"A", [2, 1], [11, 17]⟩ [9, 9] (by decide)
  exact ⟨h.1 (by decide), h.2.2⟩

/-- C4: registering a not-yet-registered user fails with `EmptyPool` on an
empty pool, fails with `InsufficientPool` when `KEYS_PER_USER` exceeds the
pool size, and otherwise succeeds, storing exactly the drawn set — which,
by `random.sample`'s contract, is `KEYS_PER_USER` distinct ids from the
pool's key-id space — leaving the pool untouched; the error cases produce
no successor state, mirroring that the source raises before any
mutation. -/
theorem C4_register_fresh_user (s : KeyServer) (user_id : String) (draw : Finset Nat)
    (hnew : s.get_user user_id = none) :
    (s.keys = [] → s.register_user user_id draw = .error .emptyPool) ∧
    (s.keys ≠ [] → s.config.KEYS_PER_USER > s.keys.length →
      s.register_user user_id draw = .error .insufficientPool) ∧
    (s.keys ≠ [] → s.config.KEYS_PER_USER ≤ s.keys.length →
      (∀ id ∈ draw, id ∈ s.keys.map Prod.fst) → draw.card = s.config.KEYS_PER_USER →
      s.register_user user_id draw =
        .ok (⟨user_id, draw⟩,
          { s with users := s.users ++ [(user_id, ⟨user_id, draw⟩)] }) ∧
      (⟨user_id, draw⟩ : User).key_ids.card = s.config.KEYS_PER_USER ∧
      (∀ id ∈ (⟨user_id, draw⟩ : User).key_ids, id ∈ s.keys.map Prod.fst) ∧
      ({ s with users := s.users ++ [(user_id, ⟨user_id, draw⟩)] } : KeyServer).get_user
        user_id = some ⟨user_id, draw⟩ ∧
      ({ s with users := s.users ++ [(user_id, ⟨user_id, draw⟩)] } : KeyServer).keys
        = s.keys) := by
  have hnew' : alookup s.users user_id = none := hnew
  refine ⟨?_, ?_, ?_⟩
  · intro hk
    simp only [KeyServer.register_user, if_pos hk]
  · intro hk hins
    simp only [KeyServer.register_user, if_neg hk, hnew', if_pos hins]
  · intro hk hins hsub hcard
    refine ⟨?_, hcard, hsub, ?_, rfl⟩
    · simp only [KeyServer.register_user, if_neg hk, hnew',
        if_neg (by omega : ¬s.config.KEYS_PER_USER > s.keys.length)]
    · show alookup (s.users ++ [(user_id, ⟨user_id, draw⟩)]) user_id
        = some ⟨user_id, draw⟩
      rw [alookup_append_of_none _ _ hnew']
      simp [alookup]

theorem C4_witness :
    pwS0.register_user "carol" {0} = .error .emptyPool ∧
    pwS1.register_user "carol" {1} =
      .ok (⟨"carol", {1}⟩,
        { pwS1 with users := pwS1.users ++ [("carol", ⟨"carol", {1}⟩)] }) := by
  have h0 := C4_register_fresh_user pwS0 "carol" {0} (by decide)
  have h1 := C4_register_fresh_user pwS1 "carol" {1} (by decide)
  exact ⟨h0.1 (by decide),
    (h1.2.2 (by decide) (by decide) (by decide) (by decide)).1⟩

/-- C5: in every reachable pool state, every registered user holds
exactly `KEYS_PER_USER` distinct key ids, all inside `[0, KEY_POOL_SIZE)`;
and `generate_key_pool` always replaces the pool wholesale with exactly
`KEY_POOL_SIZE` keys whose ids are the contiguous range
`[0, KEY_POOL_SIZE)`. -/
theorem C5_pool_invariants (s : KeyServer) (hs : PReach s) :
    (∀ pr ∈ s.users, pr.2.key_ids.card = s.config.KEYS_PER_USER ∧
      ∀ id ∈ pr.2.key_ids, id < s.config.KEY_POOL_SIZE) ∧
    (∀ (t : KeyServer) (vals : Nat → String),
      (t.generate_key_pool vals).keys =
        (List.range t.config.KEY_POOL_SIZE).map (fun i => (i, ⟨i, vals i⟩)) ∧
      (t.generate_key_pool vals).keys.map Prod.fst =
        List.range t.config.KEY_POOL_SIZE ∧
      (t.generate_key_pool vals).keys.length = t.config.KEY_POOL_SIZE) := by
  refine ⟨(preach_pinv s hs).2.2.1, ?_⟩
  intro t vals
  refine ⟨rfl, generate_key_pool_ids t vals, ?_⟩
  unfold KeyServer.generate_key_pool
  simp

theorem C5_witness :
    (⟨"alice", {0}⟩ : User).key_ids.card = pwS3.config.KEYS_PER_USER ∧
    (0 : Nat) < pwS3.config.KEY_POOL_SIZE ∧
    (pwS0.generate_key_pool pwVals).keys.length = pwS0.config.KEY_POOL_SIZE := by
  have h := C5_pool_invariants pwS3 pwS3_reach
  exact ⟨(h.1 ("alice", ⟨"alice", {0}⟩) (by decide)).1,
    (h.1 ("alice", ⟨"alice", {0}⟩) (by decide)).2 0 (by decide),
    (h.2 pwS0 pwVals).2.2⟩

/-- C10 (implicit frame effect): `generate_key_pool` replaces only the key
pool; the registered-user map — and hence every user's key-id set — and
the configuration are untouched. -/
theorem C10_generate_pool_preserves_users (s : KeyServer) (vals : Nat → String) :
    (s.generate_key_pool vals).users = s.users ∧
    (∀ uid, (s.generate_key_pool vals).get_user uid = s.get_user uid) ∧
    (s.generate_key_pool vals).config = s.config :=
  ⟨rfl, fun _ => rfl, rfl⟩

/-- C9: `common_key_ids` and `compute_shared_key` fail with `UnknownUser`
when either user id is unregistered; `compute_shared_value` fails with
`UnknownUser` when either id is unregistered and with `DimensionMismatch`
when the requester's stored secret vector or the other party's stored
public vector (the two vectors the computation uses) has a length other
than the configured dimension; for registered users `common_key_ids` is
exactly the set intersection, hence symmetric.  All of these are pure
reads: no state is produced or modified on any path. -/
theorem C9_unknown_user_errors :
    (∀ (s : KeyServer) (a b : String),
      (s.get_user a = none ∨ s.get_user b = none) →
        SharedKeyService.common_key_ids s a b = .error .unknownUser ∧
        SharedKeyService.compute_shared_key s a b = .error .unknownUser) ∧
    (∀ (s : KeyServer) (a b : String) (ua ub : User),
      s.get_user a = some ua → s.get_user b = some ub →
        SharedKeyService.common_key_ids s a b = .ok (ua.key_ids ∩ ub.key_ids) ∧
        SharedKeyService.common_key_ids s b a = .ok (ua.key_ids ∩ ub.key_ids)) ∧
    (∀ (ms : MatrixKeyServer) (a b : String),
      (alookup ms.users a = none ∨ alookup ms.users b = none) →
        ms.compute_shared_value a b = .error .unknownUser) ∧
    (∀ (ms : MatrixKeyServer) (a b : String) (sa rb : MatrixUser),
      alookup ms.users a = some sa → alookup ms.users b = some rb →
      (sa.secret_vector.length ≠ ms.dimension ∨
        rb.public_vector.length ≠ ms.dimension) →
        ms.compute_shared_value a b = .error .dimensionMismatch) := by
  refine ⟨?_, ?_, ?_, ?_⟩
  · intro s a b h
    have hcomm : SharedKeyService.common_key_ids s a b = .error .unknownUser := by
      rcases h with h | h
      · cases hB : s.get_user b <;>
          simp [SharedKeyService.common_key_ids, h, hB]
      · cases hA : s.get_user a <;>
          simp [SharedKeyService.common_key_ids, hA, h]
    refine ⟨hcomm, ?_⟩
    simp only [SharedKeyService.compute_shared_key, hcomm, except_bind_error]
  · intro s a b ua ub ha hb
    constructor
    · simp [SharedKeyService.common_key_ids, ha, hb]
    · simp only [SharedKeyService.common_key_ids, ha, hb]
      rw [Finset.inter_comm]
  · intro ms a b h
    rcases h with h | h
    · simp [MatrixKeyServer.compute_shared_value, MatrixKeyServer.get_user, h,
        except_bind_error]
    · cases hA : alookup ms.users a <;>
        simp [MatrixKeyServer.compute_shared_value, MatrixKeyServer.get_user, hA, h,
          except_bind_error, except_bind_ok]
  · intro ms a b sa rb ha hb hlen
    simp only [MatrixKeyServer.compute_shared_value, MatrixKeyServer.get_user, ha, hb,
      except_bind_ok, if_pos hlen]

theorem C9_witness :
    SharedKeyService.common_key_ids pwS3 "alice" "zed" = .error .unknownUser ∧
    SharedKeyService.compute_shared_key pwS3 "alice" "zed" = .error .unknownUser ∧
    SharedKeyService.common_key_ids pwS3 "alice" "bob" =
      .ok (({0} : Finset Nat) ∩ {1}) ∧
    SharedKeyService.common_key_ids pwS3 "bob" "alice" =
      .ok (({0} : Finset Nat) ∩ {1}) ∧
    mwS2.compute_shared_value "A" "Z" = .error .unknownUser ∧
    c9M.compute_shared_value "X" "Y" = .error .dimensionMismatch := by
  have h := C9_unknown_user_errors
  have h1 := h.1 pwS3 "alice" "zed" (Or.inr (by decide))
  have h2 := h.2.1 pwS3 "alice" "bob" ⟨"alice", {0}⟩ ⟨"bob", {1}⟩ (by decide) (by decide)
  have h3 := h.2.2.1 mwS2 "A" "Z" (Or.inr (by decide))
  have h4 := h.2.2.2 c9M "X" "Y" ⟨"X", [1], [2, 3]⟩ ⟨"Y", [1, 2], [3, 4]⟩
    (by decide) (by decide) (Or.inl (by decide))
  exact ⟨h1.1, h1.2, h2.1, h2.2, h3, h4⟩
